import Mathlib

/-!
Verification development for the educational-video-pipeline repository's
assembly and timing-alignment core: `AudioProcessor` (duration alignment
via chained `atempo` stages) and `VideoComposer` (concatenation, muxing,
naming), shallowly embedded from
`src/video_generation/audio_processor.py` and
`src/video_generation/video_composer.py`.

Python floats are modelled as exact rationals (`ℚ`): the stage-peeling
loop only divides by `2.0` and `0.5`, operations that are exact in binary
floating point, so the rational model matches the float computation.
External effects (subprocess invocations, file writes) are modelled as the
data the code hands to them: argv lists and manifest strings.
-/

namespace VideoPipeline

/-- Embeds the segment choice on line 76 of `audio_processor.py`:
`segment = 2.0 if remaining > 2.0 else 0.5`. -/
def segmentFor (remaining : ℚ) : ℚ :=
  if 2 < remaining then 2 else 1/2

/-- Fuel-indexed embedding of the `while` loop of
`AudioProcessor._split_speed_factor` (lines 73-80 of
`audio_processor.py`):

    factors = []
    remaining = speed
    while remaining < 0.5 or remaining > 2.0:
        segment = 2.0 if remaining > 2.0 else 0.5
        factors.append(segment)
        remaining /= segment
    factors.append(remaining)

`some l` means the loop terminates within `fuel` iterations and returns
the factor list `l`; `none` means more than `fuel` iterations are needed
(in particular, a run of the Python loop that never terminates is `none`
for every fuel). -/
def splitLoopF : Nat → ℚ → Option (List ℚ)
  | 0, remaining =>
      if remaining < 1/2 ∨ 2 < remaining then none else some [remaining]
  | n+1, remaining =>
      if remaining < 1/2 ∨ 2 < remaining then
        (splitLoopF n (remaining / segmentFor remaining)).map
          (fun l => segmentFor remaining :: l)
      else some [remaining]

/-- Fuel that suffices for every positive speed (proved below):
the loop only ever halves (while the remainder exceeds 2) or only ever
doubles (while the remainder is under 1/2). -/
def fuelFor (speed : ℚ) : Nat :=
  speed.num.natAbs + speed.den

/-- Embeds `AudioProcessor._split_speed_factor` as a total description: the loop run
with sufficient fuel.  For every `speed > 0` this is `some` list (proved
below); for `speed ≤ 0` the Python loop never terminates and this is
`none`. -/
def split_speed_factor (speed : ℚ) : Option (List ℚ) :=
  splitLoopF (fuelFor speed) speed

section SplitLemmas

/-- A non-positive remainder stays non-positive and below 1/2, so the loop
never exits: every fuel amount is insufficient. -/
theorem splitLoopF_nonpos (n : Nat) : ∀ r : ℚ, r ≤ 0 → splitLoopF n r = none := by
  induction n with
  | zero =>
      intro r hr
      have hc : r < 1/2 ∨ 2 < r := Or.inl (lt_of_le_of_lt hr (by norm_num))
      simp only [splitLoopF]
      rw [if_pos hc]
  | succ n ih =>
      intro r hr
      have hc : r < 1/2 ∨ 2 < r := Or.inl (lt_of_le_of_lt hr (by norm_num))
      have hseg : segmentFor r = 1/2 := by
        have h2 : ¬ 2 < r := by linarith
        simp [segmentFor, h2]
      have hrec : r / segmentFor r ≤ 0 := by
        rw [hseg]
        nlinarith
      simp only [splitLoopF]
      rw [if_pos hc, ih _ hrec]
      rfl

/-- Once the loop has returned a list, its product is exactly the input
speed: each iteration preserves `product(factors) * remaining = speed`. -/
theorem splitLoopF_prod (n : Nat) :
    ∀ r l, splitLoopF n r = some l → l.prod = r := by
  induction n with
  | zero =>
      intro r l h
      simp only [splitLoopF] at h
      by_cases hc : r < 1/2 ∨ 2 < r
      · rw [if_pos hc] at h
        exact absurd h (by simp)
      · rw [if_neg hc] at h
        rw [← Option.some_inj.mp h]
        simp
  | succ n ih =>
      intro r l h
      simp only [splitLoopF] at h
      by_cases hc : r < 1/2 ∨ 2 < r
      · rw [if_pos hc, Option.map_eq_some'] at h
        obtain ⟨l0, hl0, rfl⟩ := h
        have hseg : segmentFor r ≠ 0 := by
          rcases lt_or_le 2 r with h2 | h2
          · simp [segmentFor, h2]
          · simp [segmentFor, not_lt.mpr h2]
        simp only [List.prod_cons, ih _ _ hl0]
        field_simp
      · rw [if_neg hc] at h
        rw [← Option.some_inj.mp h]
        simp

/-- A remainder already inside `[1/2, 2]` exits the loop at once,
whatever the fuel: exactly one stage, the remainder itself. -/
theorem splitLoopF_inRange (n : Nat) (r : ℚ) (h : ¬(r < 1/2 ∨ 2 < r)) :
    splitLoopF n r = some [r] := by
  cases n with
  | zero => simp only [splitLoopF]; rw [if_neg h]
  | succ n => simp only [splitLoopF]; rw [if_neg h]

/-- Fuel sufficiency: `n` iterations suffice whenever
`1/2^(n+1) ≤ r ≤ 2^(n+1)`, because each iteration halves a too-large
remainder or doubles a too-small one. -/
theorem splitLoopF_isSome (n : Nat) :
    ∀ r : ℚ, 0 < r → r ≤ 2^(n+1) → 1/2^(n+1) ≤ r →
      (splitLoopF n r).isSome := by
  induction n with
  | zero =>
      intro r _ hup hlo
      norm_num at hup hlo
      have h : ¬(r < 1/2 ∨ 2 < r) := by
        push_neg
        constructor <;> linarith
      rw [splitLoopF_inRange 0 r h]
      rfl
  | succ n ih =>
      intro r hpos hup hlo
      by_cases hc : r < 1/2 ∨ 2 < r
      · simp only [splitLoopF]
        rw [if_pos hc]
        rcases lt_or_le 2 r with h2 | h2
        · have hseg : segmentFor r = 2 := by simp [segmentFor, h2]
          rw [hseg]
          have hs : (splitLoopF n (r / 2)).isSome := by
            apply ih
            · positivity
            · rw [div_le_iff (by norm_num : (0:ℚ) < 2)]
              calc r ≤ 2^(n+1+1) := hup
                _ = 2^(n+1) * 2 := by ring
            · have h1 : (1:ℚ) ≤ r / 2 := by linarith
              calc (1:ℚ)/2^(n+1) ≤ 1 := by
                    rw [div_le_one (by positivity)]
                    exact one_le_pow₀ (by norm_num)
                _ ≤ r / 2 := h1
          obtain ⟨l, hl⟩ := Option.isSome_iff_exists.mp hs
          rw [hl]
          rfl
        · have hhalf : r < 1/2 := hc.resolve_right (not_lt.mpr h2)
          have hseg : segmentFor r = 1/2 := by
            simp [segmentFor, not_lt.mpr (le_trans h2 (by norm_num) : r ≤ 2), not_lt.mpr h2]
          rw [hseg]
          have hdiv : r / (1/2 : ℚ) = 2 * r := by ring
          have hs : (splitLoopF n (r / (1/2))).isSome := by
            rw [hdiv]
            apply ih
            · positivity
            · have h1 : 2 * r < 1 := by linarith
              calc (2:ℚ) * r ≤ 1 := le_of_lt h1
                _ ≤ 2^(n+1) := one_le_pow₀ (by norm_num)
            · rw [div_le_iff (by positivity : (0:ℚ) < 2^(n+1+1))] at hlo
              rw [div_le_iff (by positivity : (0:ℚ) < 2^(n+1))]
              calc (1:ℚ) ≤ r * 2^(n+1+1) := hlo
                _ = 2 * r * 2^(n+1) := by ring
          obtain ⟨l, hl⟩ := Option.isSome_iff_exists.mp hs
          rw [hl]
          rfl
      · rw [splitLoopF_inRange _ r hc]
        rfl

/-- For a too-fast speed (`r > 2`) the loop peels factors of exactly `2`
and finishes with one remainder in `(1, 2]`. -/
theorem splitLoopF_gt_two (n : Nat) :
    ∀ r l, 2 < r → splitLoopF n r = some l →
      ∃ k a, l = List.replicate (k+1) (2:ℚ) ++ [a] ∧ 1 < a ∧ a ≤ 2 := by
  induction n with
  | zero =>
      intro r l h2 h
      simp only [splitLoopF] at h
      rw [if_pos (Or.inr h2)] at h
      exact absurd h (by simp)
  | succ n ih =>
      intro r l h2 h
      have hseg : segmentFor r = 2 := by simp [segmentFor, h2]
      simp only [splitLoopF] at h
      rw [if_pos (Or.inr h2), Option.map_eq_some'] at h
      obtain ⟨l0, hl0, rfl⟩ := h
      rw [hseg] at hl0 ⊢
      by_cases h22 : 2 < r / 2
      · obtain ⟨k, a, hl, ha1, ha2⟩ := ih (r/2) l0 h22 hl0
        refine ⟨k+1, a, ?_, ha1, ha2⟩
        rw [hl, List.replicate_succ]
        rfl
      · have hgt1 : (1:ℚ) < r / 2 := by linarith
        have hin : ¬(r/2 < 1/2 ∨ 2 < r/2) := by
          push_neg
          exact ⟨by linarith, not_lt.mp h22⟩
        rw [splitLoopF_inRange n _ hin, Option.some_inj] at hl0
        refine ⟨0, r/2, ?_, hgt1, not_lt.mp h22⟩
        rw [hl0]
        rfl

/-- For a too-slow speed (`r < 1/2`) the loop peels factors of exactly
`1/2` and finishes with one remainder in `[1/2, 1)`. -/
theorem splitLoopF_lt_half (n : Nat) :
    ∀ r l, r < 1/2 → splitLoopF n r = some l →
      ∃ k a, l = List.replicate (k+1) ((1:ℚ)/2) ++ [a] ∧ 1/2 ≤ a ∧ a < 1 := by
  induction n with
  | zero =>
      intro r l hh h
      simp only [splitLoopF] at h
      rw [if_pos (Or.inl hh)] at h
      exact absurd h (by simp)
  | succ n ih =>
      intro r l hh h
      have hseg : segmentFor r = 1/2 := by
        have h2 : ¬ 2 < r := by linarith
        simp [segmentFor, h2]
      simp only [splitLoopF] at h
      rw [if_pos (Or.inl hh), Option.map_eq_some'] at h
      obtain ⟨l0, hl0, rfl⟩ := h
      rw [hseg] at hl0 ⊢
      have hdouble : r / (1/2 : ℚ) = 2 * r := by ring
      rw [hdouble] at hl0
      by_cases hhh : 2 * r < 1/2
      · obtain ⟨k, a, hl, ha1, ha2⟩ := ih (2*r) l0 hhh hl0
        refine ⟨k+1, a, ?_, ha1, ha2⟩
        rw [hl, List.replicate_succ]
        rfl
      · have hlt1 : 2 * r < 1 := by linarith
        have hin : ¬(2*r < 1/2 ∨ 2 < 2*r) := by
          push_neg
          exact ⟨not_lt.mp hhh, by linarith⟩
        rw [splitLoopF_inRange n _ hin, Option.some_inj] at hl0
        refine ⟨0, 2*r, ?_, not_lt.mp hhh, hlt1⟩
        rw [hl0]
        rfl

/-- A positive rational is at most its numerator (the denominator is at
least one). -/
theorem rat_le_natAbs_num (r : ℚ) (h : 0 < r) : r ≤ (r.num.natAbs : ℚ) := by
  have hnum : 0 < r.num := Rat.num_pos.mpr h
  have hden : (1:ℚ) ≤ (r.den : ℚ) := by exact_mod_cast r.pos
  have h1 : r ≤ (r.num : ℚ) := by
    conv_lhs => rw [← Rat.num_div_den r]
    rw [div_le_iff (by exact_mod_cast r.pos)]
    exact le_mul_of_one_le_right (by exact_mod_cast hnum.le) hden
  calc r ≤ (r.num : ℚ) := h1
    _ ≤ (r.num.natAbs : ℚ) := by
        rw [show ((r.num.natAbs : ℕ) : ℚ) = ((r.num.natAbs : ℤ) : ℚ) from
          (Int.cast_natCast r.num.natAbs).symm]
        exact Int.cast_le.mpr Int.le_natAbs

/-- A positive rational is at least the reciprocal of its denominator
(the numerator is at least one). -/
theorem one_div_den_le_rat (r : ℚ) (h : 0 < r) : 1 / (r.den : ℚ) ≤ r := by
  have hnum : (1:ℚ) ≤ (r.num : ℚ) := by exact_mod_cast Rat.num_pos.mpr h
  have hden : (0:ℚ) < (r.den : ℚ) := by exact_mod_cast r.pos
  conv_rhs => rw [← Rat.num_div_den r]
  rw [div_le_div_iff hden hden]
  nlinarith

/-- The declared fuel `fuelFor` really suffices for every positive speed:
`AudioProcessor._split_speed_factor` terminates on all `speed > 0`. -/
theorem split_speed_factor_isSome (r : ℚ) (h : 0 < r) :
    (split_speed_factor r).isSome := by
  have hN : r.num.natAbs ≤ 2 ^ (fuelFor r + 1) := by
    calc r.num.natAbs ≤ 2 ^ r.num.natAbs := (Nat.lt_two_pow _).le
      _ ≤ 2 ^ (fuelFor r + 1) := by
          apply Nat.pow_le_pow_right (by norm_num)
          simp only [fuelFor]
          omega
  have hD : r.den ≤ 2 ^ (fuelFor r + 1) := by
    calc r.den ≤ 2 ^ r.den := (Nat.lt_two_pow _).le
      _ ≤ 2 ^ (fuelFor r + 1) := by
          apply Nat.pow_le_pow_right (by norm_num)
          simp only [fuelFor]
          omega
  apply splitLoopF_isSome (fuelFor r) r h
  · calc r ≤ (r.num.natAbs : ℚ) := rat_le_natAbs_num r h
      _ ≤ ((2 ^ (fuelFor r + 1) : ℕ) : ℚ) := by exact_mod_cast hN
      _ = 2 ^ (fuelFor r + 1) := by push_cast; ring
  · have hden : (0:ℚ) < (r.den : ℚ) := by exact_mod_cast r.pos
    calc (1:ℚ) / 2 ^ (fuelFor r + 1) ≤ 1 / (r.den : ℚ) := by
          apply one_div_le_one_div_of_le hden
          calc ((r.den : ℕ) : ℚ) ≤ ((2 ^ (fuelFor r + 1) : ℕ) : ℚ) := by exact_mod_cast hD
            _ = 2 ^ (fuelFor r + 1) := by push_cast; ring
      _ ≤ r := one_div_den_le_rat r h

end SplitLemmas

/-- C1: for every speed ratio `r > 0`, `_split_speed_factor` returns a
list of stage factors whose product is exactly `r` (the rational model is
exact, so the float tolerance is met trivially). -/
theorem stage_product_eq_speed (r : ℚ) (h : 0 < r) :
    ∃ l, split_speed_factor r = some l ∧ l.prod = r := by
  obtain ⟨l, hl⟩ := Option.isSome_iff_exists.mp (split_speed_factor_isSome r h)
  exact ⟨l, hl, splitLoopF_prod (fuelFor r) r l hl⟩

/-- Witness for C1 at the concrete speed `r = 5`. -/
theorem stage_product_eq_speed_witness :
    (0:ℚ) < 5 ∧ ∃ l, split_speed_factor 5 = some l ∧ l.prod = 5 :=
  ⟨by norm_num, stage_product_eq_speed 5 (by norm_num)⟩

/-- C2: a speed already in `[1/2, 2]` yields exactly the one stage `[r]`;
for `r > 2` every stage but the last is exactly `2` and the last lies in
`[1/2, 2]`; for `0 < r < 1/2` every stage but the last is exactly `1/2`
and the last lies in `[1/2, 2]`. -/
theorem stage_shape (r : ℚ) (h : 0 < r) :
    ∃ l, split_speed_factor r = some l ∧
      (1/2 ≤ r ∧ r ≤ 2 → l = [r]) ∧
      (2 < r → (∀ x ∈ l.dropLast, x = 2) ∧
        ∃ a, l.getLast? = some a ∧ 1/2 ≤ a ∧ a ≤ 2) ∧
      (r < 1/2 → (∀ x ∈ l.dropLast, x = 1/2) ∧
        ∃ a, l.getLast? = some a ∧ 1/2 ≤ a ∧ a ≤ 2) := by
  obtain ⟨l, hl⟩ := Option.isSome_iff_exists.mp (split_speed_factor_isSome r h)
  refine ⟨l, hl, ?_, ?_, ?_⟩
  · rintro ⟨hlo, hhi⟩
    have hin : ¬(r < 1/2 ∨ 2 < r) := by
      push_neg
      exact ⟨by linarith, hhi⟩
    rw [split_speed_factor, splitLoopF_inRange _ r hin, Option.some_inj] at hl
    exact hl.symm
  · intro h2
    obtain ⟨k, a, rfl, ha1, ha2⟩ := splitLoopF_gt_two (fuelFor r) r l h2 hl
    constructor
    · intro x hx
      rw [List.dropLast_concat] at hx
      exact List.eq_of_mem_replicate hx
    · exact ⟨a, by simp, by linarith, ha2⟩
  · intro hh
    obtain ⟨k, a, rfl, ha1, ha2⟩ := splitLoopF_lt_half (fuelFor r) r l hh hl
    constructor
    · intro x hx
      rw [List.dropLast_concat] at hx
      exact List.eq_of_mem_replicate hx
    · exact ⟨a, by simp, ha1, by linarith⟩

/-- Witness for C2 at the concrete speed `r = 5 > 2`. -/
theorem stage_shape_witness :
    (0:ℚ) < 5 ∧
    ∃ l, split_speed_factor 5 = some l ∧
      (1/2 ≤ (5:ℚ) ∧ (5:ℚ) ≤ 2 → l = [5]) ∧
      (2 < (5:ℚ) → (∀ x ∈ l.dropLast, x = 2) ∧
        ∃ a, l.getLast? = some a ∧ 1/2 ≤ a ∧ a ≤ 2) ∧
      ((5:ℚ) < 1/2 → (∀ x ∈ l.dropLast, x = 1/2) ∧
        ∃ a, l.getLast? = some a ∧ 1/2 ≤ a ∧ a ≤ 2) :=
  ⟨by norm_num, stage_shape 5 (by norm_num)⟩

/-- C3: the peeling loop of `_split_speed_factor` terminates for every
positive speed, and the number of emitted stages is logarithmic in the
speed's numerator and denominator (`O(log r)`). -/
theorem stage_termination_log_bound (r : ℚ) (h : 0 < r) :
    ∃ l, split_speed_factor r = some l ∧
      l.length ≤ Nat.log 2 r.num.natAbs + Nat.log 2 r.den + 1 := by
  obtain ⟨l, hl⟩ := Option.isSome_iff_exists.mp (split_speed_factor_isSome r h)
  refine ⟨l, hl, ?_⟩
  have hprod : l.prod = r := splitLoopF_prod (fuelFor r) r l hl
  by_cases h2 : 2 < r
  · obtain ⟨k, a, rfl, ha1, _⟩ := splitLoopF_gt_two (fuelFor r) r _ h2 hl
    have hlen : (List.replicate (k+1) (2:ℚ) ++ [a]).length = k + 2 := by simp
    have hpow : (2:ℚ)^(k+1) < r := by
      rw [← hprod]
      simp only [List.prod_append, List.prod_replicate, List.prod_singleton]
      nlinarith [pow_pos (by norm_num : (0:ℚ) < 2) (k+1)]
    have hNnz : r.num.natAbs ≠ 0 := by
      have := Rat.num_pos.mpr h
      omega
    have hNat : 2^(k+1) ≤ r.num.natAbs := by
      have hq : (2:ℚ)^(k+1) < (r.num.natAbs : ℚ) :=
        lt_of_lt_of_le hpow (rat_le_natAbs_num r h)
      have : ((2^(k+1) : ℕ) : ℚ) < (r.num.natAbs : ℚ) := by push_cast; exact hq
      exact_mod_cast this.le
    have hklog : k + 1 ≤ Nat.log 2 r.num.natAbs :=
      (Nat.pow_le_iff_le_log (by norm_num) hNnz).mp hNat
    rw [hlen]
    omega
  · by_cases hh : r < 1/2
    · obtain ⟨k, a, rfl, _, ha2⟩ := splitLoopF_lt_half (fuelFor r) r _ hh hl
      have hlen : (List.replicate (k+1) ((1:ℚ)/2) ++ [a]).length = k + 2 := by simp
      have hpow : r < (1/2:ℚ)^(k+1) := by
        rw [← hprod]
        simp only [List.prod_append, List.prod_replicate, List.prod_singleton]
        nlinarith [pow_pos (by norm_num : (0:ℚ) < 1/2) (k+1)]
      have hden : (0:ℚ) < (r.den : ℚ) := by exact_mod_cast r.pos
      have hq : (1:ℚ)/(r.den:ℚ) < (1:ℚ)/2^(k+1) := by
        apply lt_of_le_of_lt (one_div_den_le_rat r h)
        calc r < (1/2:ℚ)^(k+1) := hpow
          _ = 1/2^(k+1) := by rw [one_div_pow]
      have h2d : (2:ℚ)^(k+1) < (r.den:ℚ) := by
        rw [div_lt_div_iff hden (by positivity)] at hq
        linarith
      have hDnz : r.den ≠ 0 := r.pos.ne'
      have hNat : 2^(k+1) ≤ r.den := by
        have hc : ((2^(k+1) : ℕ) : ℚ) < (r.den : ℚ) := by push_cast; exact h2d
        exact_mod_cast hc.le
      have hklog : k + 1 ≤ Nat.log 2 r.den :=
        (Nat.pow_le_iff_le_log (by norm_num) hDnz).mp hNat
      rw [hlen]
      omega
    · have hin : ¬(r < 1/2 ∨ 2 < r) := by tauto
      rw [split_speed_factor, splitLoopF_inRange _ r hin, Option.some_inj] at hl
      rw [← hl]
      simp

/-- Witness for C3 at the concrete speed `r = 5`. -/
theorem stage_termination_log_bound_witness :
    (0:ℚ) < 5 ∧ ∃ l, split_speed_factor 5 = some l ∧
      l.length ≤ Nat.log 2 (5:ℚ).num.natAbs + Nat.log 2 (5:ℚ).den + 1 :=
  ⟨by norm_num, stage_termination_log_bound 5 (by norm_num)⟩

/-- C4 (code bug): `process_audio` performs no validation of
`target_duration`.  For a clip of duration 3 and target `-1` it computes
`speed_factor = 3 / (-1) = -3` and calls `_split_speed_factor`, whose
`while` loop never exits on a negative remainder: no fuel amount
suffices, i.e. the Python call hangs instead of raising the validation
error the spec requires (a target of exactly `0` instead raises
`ZeroDivisionError`, equally not a validation error, and only after the
`ffprobe` subprocess has already run). -/
theorem negative_target_loops_forever :
    ∀ n : Nat, splitLoopF n ((3:ℚ) / (-1)) = none :=
  fun n => splitLoopF_nonpos n _ (by norm_num)

/-! ## Filter-chain construction in `AudioProcessor.process_audio`
(lines 38-48 of `audio_processor.py`).  A filter stage is modelled by an
inductive value carrying its exact numeric parameter; the `f"{...:.3f}"`
textual formatting of the argv string is abstracted into the
constructor. -/

/-- One FFmpeg audio-filter stage as assembled by `process_audio`. -/
inductive AFilter where
  | atempo (f : ℚ)
  | rubberband (p : ℚ)
deriving DecidableEq, Repr

/-- Embeds lines 38-48 of `audio_processor.py`:

    filters = [f"atempo={f:.3f}" for f in factors]
    if pitch_shift:
        filters.append(f"rubberband=pitch={pitch_shift}")

Python truthiness: `if pitch_shift:` is false both for `None` and for the
float `0.0`, so a requested pitch shift of `0` appends nothing. -/
def buildFilters (factors : List ℚ) (pitchShift : Option ℚ) : List AFilter :=
  let filters := factors.map AFilter.atempo
  match pitchShift with
  | some p => if p = 0 then filters else filters ++ [AFilter.rubberband p]
  | none => filters

/-- The full filter chain of `process_audio`: tempo stages from
`_split_speed_factor(current_duration / target_duration)`, then the
optional pitch stage.  `none` when the stage loop does not terminate. -/
def processAudioFilters (currentDuration targetDuration : ℚ)
    (pitchShift : Option ℚ) : Option (List AFilter) :=
  (split_speed_factor (currentDuration / targetDuration)).map
    (fun fs => buildFilters fs pitchShift)

/-! ## `AudioProcessor.__init__` and the ffmpeg argv of `process_audio`
(lines 14-16 and 50-63 of `audio_processor.py`).  A Python dict of ints
is modelled as an association list; `dict.get` with no default returns
`None`, i.e. `Option.none`. -/

/-- Python truthiness of `audio_config`: `None` and `{}` are falsy. -/
def pyTruthy (cfg : Option (List (String × Int))) : Bool :=
  match cfg with
  | none => false
  | some l => !l.isEmpty

/-- Embeds `d.get(k)` — `None` when the key is missing. -/
def dictGet (l : List (String × Int)) (k : String) : Option Int :=
  (l.find? (fun kv => kv.fst == k)).map Prod.snd

/-- Embeds `d.get(k, default)`. -/
def dictGetD (l : List (String × Int)) (k : String) (d : Int) : Int :=
  (dictGet l k).getD d

/-- Line 15: `self.sample_rate = audio_config.get("sample_rate") if
audio_config else 48_000`. -/
def initSampleRate (audioConfig : Option (List (String × Int))) : Option Int :=
  if pyTruthy audioConfig then dictGet (audioConfig.getD []) "sample_rate"
  else some 48000

/-- Line 16: `self.channels = audio_config.get("channels", 2) if
audio_config else 2`. -/
def initChannels (audioConfig : Option (List (String × Int))) : Int :=
  if pyTruthy audioConfig then dictGetD (audioConfig.getD []) "channels" 2
  else 2

/-- Python `str()` applied to the stored sample rate: `str(None)` is the
literal string `"None"`. -/
def pyStr (v : Option Int) : String :=
  match v with
  | none => "None"
  | some n => toString n

/-- The ffmpeg argv built on lines 50-63 of `audio_processor.py`. -/
def processAudioCmd (sampleRate : Option Int) (channels : Int)
    (wavPath processedPath filterStr : String) : List String :=
  ["ffmpeg", "-y", "-i", wavPath, "-vn", "-ac", toString channels,
   "-ar", pyStr sampleRate, "-af", filterStr, processedPath]

/-! ## `VideoComposer` (video_composer.py).  Paths are modelled as the
strings the code interpolates (`Path.resolve()` is abstracted: inputs
stand for their already-resolved absolute paths).  External effects are
modelled as the data handed to them: the subprocess argv lists and the
manifest texts written to the concat files. -/

/-- The single-quote character, kept out of string literals so character
escapes stay unambiguous. -/
def squote : Char := Char.ofNat 39

/-- The newline character. -/
def nlChar : Char := Char.ofNat 10

/-- One manifest line, embedding line 98 of `video_composer.py`:
`f"file '{v.resolve()}'"` — the path is wrapped in single quotes with no
escaping of quote characters inside the path. -/
def concatLine (p : List Char) : List Char :=
  "file ".toList ++ ([squote] ++ p ++ [squote])

/-- Embeds `VideoComposer._generate_concat_list` (lines 93-98):
`"\n".join(f"file '{v.resolve()}'" for v in videos)`.  Line 106 of
`_merge_audios` builds its audio manifest with the identical
expression. -/
def generateConcatList (videos : List (List Char)) : List Char :=
  List.intercalate [nlChar] (videos.map concatLine)

/-- Modelled from the spec: the concat-demuxer quoting rules that the
manifest must satisfy (the demuxer itself is external ffmpeg code, not
part of this repository).  A quote character toggles quoted mode and is
consumed; every other character is literal; an unterminated quote is a
parse error. -/
def demuxUnquote : List Char → Bool → Option (List Char)
  | [], false => some []
  | [], true => none
  | c :: rest, inq =>
      if c = squote then demuxUnquote rest (!inq)
      else (demuxUnquote rest inq).map (fun l => c :: l)

/-- Modelled from the spec: parsing one manifest line per the demuxer's
rules — strip the `file ` keyword, then unquote the remainder. -/
def parseConcatLine (line : List Char) : Option (List Char) :=
  if line.take 5 = "file ".toList then demuxUnquote (line.drop 5) false
  else none

/-- Python `str.replace(' ', '_')` on the title: every space character
(U+0020, and only that character) is replaced by an underscore. -/
def underscoreSpaces (title : List Char) : List Char :=
  title.map (fun c => if c = ' ' then '_' else c)

/-- The deliverable's filename, embedding line 67 of
`video_composer.py`: `f"{metadata['title'].replace(' ', '_')}.mp4"`. -/
def outputFilename (title : List Char) : List Char :=
  underscoreSpaces title ++ ".mp4".toList

/-- Everything `compose_final_video` hands to the outside world on its
success path, in order: the three subprocess argv lists (video concat,
audio merge, mux), the two manifest texts, and the deliverable path. -/
structure ComposePlan where
  cmds : List (List String)
  videoManifest : String
  audioManifest : String
  finalPath : String
deriving DecidableEq, Repr

/-- Embeds `VideoComposer.compose_final_video` (lines 23-90 of
`video_composer.py`): the count check, then the concat / merge / mux
command plan.  `Except.error` models the raised `ValueError`; an error
is raised before any subprocess command exists. -/
def composeFinalVideo (sceneVideos audioFiles : List String)
    (title : String) (outputDir : String) : Except String ComposePlan :=
  if sceneVideos.length ≠ audioFiles.length then
    Except.error "Scene and audio counts differ."
  else
    let concatList := String.mk (generateConcatList (sceneVideos.map String.data))
    let concatFile := outputDir ++ "/concat.txt"
    let videoNoAudio := outputDir ++ "/temp_no_audio.mp4"
    let cmdConcat := ["ffmpeg", "-y", "-f", "concat", "-safe", "0", "-i",
      concatFile, "-c", "copy", videoNoAudio]
    let audioManifest := String.mk (generateConcatList (audioFiles.map String.data))
    let audioConcatFile := outputDir ++ "/audio_concat.txt"
    let mergedPath := outputDir ++ "/merged_audio.wav"
    let cmdMerge := ["ffmpeg", "-y", "-f", "concat", "-safe", "0", "-i",
      audioConcatFile, "-c", "copy", mergedPath]
    let finalPath := outputDir ++ "/" ++ String.mk (outputFilename title.data)
    let cmdMux := ["ffmpeg", "-y", "-i", videoNoAudio, "-i", mergedPath,
      "-c:v", "copy", "-c:a", "aac", "-b:a", "192k", finalPath]
    Except.ok ⟨[cmdConcat, cmdMerge, cmdMux], concatList, audioManifest, finalPath⟩

/-- Returns `true` iff the composition call raised (modelled `ValueError`). -/
def composeRaisesError (e : Except String ComposePlan) : Bool :=
  match e with
  | Except.error _ => true
  | Except.ok _ => false

/-- The subprocess commands a composition call runs: none when it
raises. -/
def planCmds (e : Except String ComposePlan) : List (List String) :=
  match e with
  | Except.error _ => []
  | Except.ok p => p.cmds

/-- C5 counterexample: with 3 video clips and 2 audio clips the raised
error is the fixed string `"Scene and audio counts differ."`, which
contains no digit at all, so it does not name the counts 3 and 2. -/
theorem mismatch_error_names_no_counts :
    composeFinalVideo ["v1", "v2", "v3"] ["a1", "a2"] "Title" "out" =
      Except.error "Scene and audio counts differ." ∧
    "Scene and audio counts differ.".data.all (fun c => !c.isDigit) = true := by
  exact ⟨rfl, by decide⟩

/-- C5 amended: a video/audio count mismatch raises a hard error before
any subprocess runs — but with a fixed message that does not name the
two counts. -/
theorem mismatch_raises_before_subprocess (v a : List String) (t d : String)
    (h : v.length ≠ a.length) :
    composeFinalVideo v a t d = Except.error "Scene and audio counts differ." ∧
    planCmds (composeFinalVideo v a t d) = [] := by
  constructor <;> simp [composeFinalVideo, if_pos h, planCmds]

/-- Witness for the amended C5 at 3 video clips versus 2 audio clips. -/
theorem mismatch_raises_before_subprocess_witness :
    (["v1", "v2", "v3"] : List String).length ≠ (["a1", "a2"] : List String).length ∧
    (composeFinalVideo ["v1", "v2", "v3"] ["a1", "a2"] "Title" "out" =
      Except.error "Scene and audio counts differ." ∧
    planCmds (composeFinalVideo ["v1", "v2", "v3"] ["a1", "a2"] "Title" "out") = []) :=
  ⟨by decide,
   mismatch_raises_before_subprocess ["v1", "v2", "v3"] ["a1", "a2"] "Title" "out" (by decide)⟩

/-- C6 counterexample: zero video clips and zero audio clips pass the
only validation check (`0 = 0`), so no error is raised and the plan
still contains all three subprocess invocations. -/
theorem empty_lists_no_validation_error :
    composeRaisesError (composeFinalVideo [] [] "Title" "out") = false ∧
    (planCmds (composeFinalVideo [] [] "Title" "out")).length = 3 := by
  exact ⟨rfl, rfl⟩

/-- C6 amended: an empty concatenation list is not validated —
`compose_final_video` with zero clips writes an empty concat manifest
and proceeds to invoke the external processes (whose own failure, not a
validation error, is what eventually surfaces). -/
theorem empty_lists_proceed_with_empty_manifest (t d : String) :
    ∃ p, composeFinalVideo [] [] t d = Except.ok p ∧
      p.videoManifest = "" ∧ p.audioManifest = "" ∧ p.cmds.length = 3 := by
  exact ⟨_, rfl, rfl, rfl, rfl⟩

/-- Unquoting a quote-free path followed by its closing quote succeeds
and returns the path. -/
theorem demuxUnquote_append_quote (p : List Char) (h : squote ∉ p) :
    demuxUnquote (p ++ [squote]) true = some p := by
  induction p with
  | nil => simp [demuxUnquote]
  | cons c p ih =>
      have hc : c ≠ squote := fun hc => h (by rw [hc]; exact List.mem_cons_self _ _)
      have hp : squote ∉ p := fun hm => h (List.mem_cons_of_mem _ hm)
      simp [demuxUnquote, hc, ih hp]

/-- C7 counterexample: a path containing an embedded single quote breaks
the manifest line — parsing it per the demuxer's quoting rules hits an
unterminated quote and fails, recovering nothing (the path here is
`a'b`). -/
theorem quote_in_path_breaks_manifest :
    parseConcatLine (concatLine [Char.ofNat 97, squote, Char.ofNat 98]) = none ∧
    parseConcatLine (concatLine [Char.ofNat 97, squote, Char.ofNat 98]) ≠
      some [Char.ofNat 97, squote, Char.ofNat 98] := by
  exact ⟨by decide, by decide⟩

/-- C7 amended: `_generate_concat_list` wraps each path in single quotes
without escaping, so parsing a manifest line recovers the original path
exactly when the path contains no single-quote character. -/
theorem manifest_roundtrip_no_quote (p : List Char) (h : squote ∉ p) :
    parseConcatLine (concatLine p) = some p := by
  rw [parseConcatLine, concatLine]
  have h5 : ("file ".toList).length = 5 := rfl
  have htake : ("file ".toList ++ ([squote] ++ p ++ [squote])).take 5 = "file ".toList := by
    rw [← h5, List.take_left]
  have hdrop : ("file ".toList ++ ([squote] ++ p ++ [squote])).drop 5 =
      [squote] ++ p ++ [squote] := by
    rw [← h5, List.drop_left]
  rw [if_pos htake, hdrop]
  show demuxUnquote (squote :: (p ++ [squote])) false = some p
  simp [demuxUnquote, demuxUnquote_append_quote p h]

/-- Witness for the amended C7 on the quote-free path `ab`. -/
theorem manifest_roundtrip_no_quote_witness :
    squote ∉ [Char.ofNat 97, Char.ofNat 98] ∧
    parseConcatLine (concatLine [Char.ofNat 97, Char.ofNat 98]) =
      some [Char.ofNat 97, Char.ofNat 98] :=
  ⟨by decide, manifest_roundtrip_no_quote [Char.ofNat 97, Char.ofNat 98] (by decide)⟩

/-- C8 counterexample: a requested pitch adjustment of `0.0` is falsy in
Python, so `process_audio` silently drops the pitch stage instead of
appending it after the tempo stages. -/
theorem pitch_zero_drops_stage :
    buildFilters [2] (some 0) = [AFilter.atempo 2] ∧
    buildFilters [2] (some 0) ≠
      buildFilters [2] none ++ [AFilter.rubberband 0] := by
  exact ⟨by decide, by decide⟩

/-- C8 amended: for every nonzero requested pitch, the built filter
chain is exactly the tempo stages computed by `_split_speed_factor` for
that clip and target followed by the one pitch stage at the end, and the
tempo stages are identical with and without the pitch request. -/
theorem pitch_appended_after_tempo (cur tgt p : ℚ)
    (h : 0 < cur / tgt) (hp : p ≠ 0) :
    ∃ fs, split_speed_factor (cur / tgt) = some fs ∧
      processAudioFilters cur tgt (some p) =
        some (fs.map AFilter.atempo ++ [AFilter.rubberband p]) ∧
      processAudioFilters cur tgt none = some (fs.map AFilter.atempo) := by
  obtain ⟨fs, hfs⟩ := Option.isSome_iff_exists.mp (split_speed_factor_isSome _ h)
  refine ⟨fs, hfs, ?_, ?_⟩ <;> simp [processAudioFilters, hfs, buildFilters, hp]

/-- Witness for the amended C8 at durations 3 and 2 with pitch 1. -/
theorem pitch_appended_after_tempo_witness :
    ((0:ℚ) < 3 / 2 ∧ (1:ℚ) ≠ 0) ∧
    ∃ fs, split_speed_factor ((3:ℚ) / 2) = some fs ∧
      processAudioFilters 3 2 (some 1) =
        some (fs.map AFilter.atempo ++ [AFilter.rubberband 1]) ∧
      processAudioFilters 3 2 none = some (fs.map AFilter.atempo) :=
  ⟨⟨by norm_num, by norm_num⟩,
   pitch_appended_after_tempo 3 2 1 (by norm_num) (by norm_num)⟩

/-- C9 counterexample: a tab character in the title survives into the
deliverable's filename — only the space character U+0020 is replaced, so
a whitespace character remains (the title here is `a<TAB>b`). -/
theorem tab_survives_in_filename :
    outputFilename [Char.ofNat 97, Char.ofNat 9, Char.ofNat 98] =
      [Char.ofNat 97, Char.ofNat 9, Char.ofNat 98] ++ ".mp4".toList ∧
    (outputFilename [Char.ofNat 97, Char.ofNat 9, Char.ofNat 98]).any
      Char.isWhitespace = true := by
  exact ⟨by decide, by decide⟩

/-- C9 amended: the deliverable's filename is a pure function of the
title (same title, same name, no uniqueness suffix — the length is
exactly the title's length plus the fixed `.mp4` suffix) in which every
space character U+0020 is replaced by an underscore; whitespace other
than U+0020 is kept. -/
theorem filename_space_replacement (title : List Char) :
    ' ' ∉ outputFilename title ∧
    (outputFilename title).length = title.length + 4 := by
  constructor
  · intro hmem
    rw [outputFilename, List.mem_append] at hmem
    rcases hmem with hm | hm
    · rw [underscoreSpaces, List.mem_map] at hm
      obtain ⟨a, _, ha⟩ := hm
      by_cases hsp : a = ' '
      · rw [if_pos hsp] at ha
        exact absurd ha (by decide)
      · rw [if_neg hsp] at ha
        exact hsp ha
    · exact absurd hm (by decide)
  · rw [outputFilename, List.length_append, underscoreSpaces, List.length_map]
    rfl

/-- C10: the constructor's defaults are asymmetric.  A non-empty config
dict lacking `sample_rate` stores `None` (while `channels` still
defaults to 2); the 48000 default applies only when the config is `None`
or the empty dict; and the stored `None` is stringified verbatim as the
`-ar` argument of the ffmpeg command built by `process_audio`. -/
theorem sample_rate_default_asymmetry (cfg : List (String × Int))
    (hne : cfg ≠ []) (hsr : dictGet cfg "sample_rate" = none)
    (hch : dictGet cfg "channels" = none) (w o f : String) :
    initSampleRate (some cfg) = none ∧
    initChannels (some cfg) = 2 ∧
    initSampleRate none = some 48000 ∧
    initSampleRate (some []) = some 48000 ∧
    (processAudioCmd (initSampleRate (some cfg)) (initChannels (some cfg))
      w o f).get? 7 = some "-ar" ∧
    (processAudioCmd (initSampleRate (some cfg)) (initChannels (some cfg))
      w o f).get? 8 = some "None" := by
  have htr : pyTruthy (some cfg) = true := by
    cases cfg with
    | nil => exact absurd rfl hne
    | cons a l => rfl
  have h1 : initSampleRate (some cfg) = none := by
    simp only [initSampleRate, htr, if_true, Option.getD]
    exact hsr
  have h2 : initChannels (some cfg) = 2 := by
    simp only [initChannels, htr, if_true, dictGetD, Option.getD]
    rw [hch]
  refine ⟨h1, h2, rfl, rfl, ?_, ?_⟩
  · rfl
  · rw [processAudioCmd, h1]
    rfl

/-- Witness for C10 on the concrete config `{"other": 7}`. -/
theorem sample_rate_default_asymmetry_witness :
    ([("other", 7)] ≠ ([] : List (String × Int)) ∧
     dictGet [("other", 7)] "sample_rate" = none ∧
     dictGet [("other", 7)] "channels" = none) ∧
    (initSampleRate (some [("other", 7)]) = none ∧
     initChannels (some [("other", 7)]) = 2 ∧
     initSampleRate none = some 48000 ∧
     initSampleRate (some []) = some 48000 ∧
     (processAudioCmd (initSampleRate (some [("other", 7)]))
       (initChannels (some [("other", 7)])) "in.wav" "out.wav" "atempo=2.000").get? 7 =
         some "-ar" ∧
     (processAudioCmd (initSampleRate (some [("other", 7)]))
       (initChannels (some [("other", 7)])) "in.wav" "out.wav" "atempo=2.000").get? 8 =
         some "None") :=
  ⟨⟨by decide, rfl, rfl⟩,
   sample_rate_default_asymmetry [("other", 7)] (by decide) rfl rfl
     "in.wav" "out.wav" "atempo=2.000"⟩

end VideoPipeline
